import Mathlib

/-
Verification of the DISCO MPPI controller (disco/controllers/amppi.py) and
the rejection-sampling model base (disco/models/base.py) against its
natural-language specification.

The controller works on torch float tensors; cells are modelled by the type
`V` below: a finite cell carries an exact real, and the non-finite cells
(+inf, -inf, nan) are modelled explicitly with IEEE-754 propagation rules
for the operations the controller uses.  Tensors are modelled as functions
out of `Fin`-indexed types, so the shape of every array is carried by its
type.  `base.py` works on plain floats with no exponentials, and is
modelled computably over `ℚ`.
-/

noncomputable section

namespace Disco

/-- Value of one float tensor cell: finite (exact real), +inf, -inf or nan. -/
inductive V where
  | fin (x : ℝ)
  | pinf
  | ninf
  | nan

/-- th.isfinite on one cell. -/
def V.isfinite : V → Bool
  | .fin _ => true
  | _ => false

/-- The real carried by a finite cell (junk 0 on non-finite cells; it is
only read beneath an isfinite guard, as in the source). -/
def V.toR : V → ℝ
  | .fin x => x
  | _ => 0

/-- IEEE addition on cells. -/
def V.add : V → V → V
  | .nan, _ => .nan
  | _, .nan => .nan
  | .fin x, .fin y => .fin (x + y)
  | .fin _, .pinf => .pinf
  | .fin _, .ninf => .ninf
  | .pinf, .fin _ => .pinf
  | .pinf, .pinf => .pinf
  | .pinf, .ninf => .nan
  | .ninf, .fin _ => .ninf
  | .ninf, .pinf => .nan
  | .ninf, .ninf => .ninf

/-- IEEE multiplication of a cell by a finite real scalar. -/
def V.smul (c : ℝ) : V → V
  | .fin x => .fin (c * x)
  | .pinf => if 0 < c then .pinf else if c < 0 then .ninf else .nan
  | .ninf => if 0 < c then .ninf else if c < 0 then .pinf else .nan
  | .nan => .nan

/-- IEEE subtraction of a finite real scalar from a cell. -/
def V.subR (v : V) (b : ℝ) : V :=
  match v with
  | .fin x => .fin (x - b)
  | .pinf => .pinf
  | .ninf => .ninf
  | .nan => .nan

/-- th.exp on one cell. -/
def V.exp : V → V
  | .fin x => .fin (Real.exp x)
  | .pinf => .pinf
  | .ninf => .fin 0
  | .nan => .nan

/-- IEEE division of a cell by a finite real scalar. -/
def V.divR (v : V) (e : ℝ) : V :=
  match v with
  | .fin x =>
      if e = 0 then (if 0 < x then .pinf else if x < 0 then .ninf else .nan)
      else .fin (x / e)
  | .pinf => if e < 0 then .ninf else .pinf
  | .ninf => if e < 0 then .pinf else .ninf
  | .nan => .nan

instance : Zero V := ⟨V.fin 0⟩
instance : Add V := ⟨V.add⟩

theorem V.zero_def : (0 : V) = V.fin 0 := rfl

theorem V.add_def (a b : V) : a + b = V.add a b := rfl

@[simp] theorem V.fin_add_fin (x y : ℝ) : V.fin x + V.fin y = V.fin (x + y) := rfl

instance : AddCommMonoid V where
  add_assoc a b c := by
    cases a <;> cases b <;> cases c <;>
      simp [V.add_def, V.add, add_assoc]
  add_comm a b := by
    cases a <;> cases b <;> simp [V.add_def, V.add, add_comm]
  zero_add a := by
    cases a <;> simp [V.zero_def, V.add_def, V.add]
  add_zero a := by
    cases a <;> simp [V.zero_def, V.add_def, V.add]
  nsmul := nsmulRec

@[simp] theorem V.isfinite_fin (x : ℝ) : (V.fin x).isfinite = true := rfl
@[simp] theorem V.isfinite_pinf : V.pinf.isfinite = false := rfl
@[simp] theorem V.isfinite_ninf : V.ninf.isfinite = false := rfl
@[simp] theorem V.isfinite_nan : V.nan.isfinite = false := rfl
@[simp] theorem V.toR_fin (x : ℝ) : (V.fin x).toR = x := rfl
@[simp] theorem V.subR_fin (x b : ℝ) : (V.fin x).subR b = V.fin (x - b) := rfl
@[simp] theorem V.smul_fin (c x : ℝ) : V.smul c (V.fin x) = V.fin (c * x) := rfl
@[simp] theorem V.exp_fin (x : ℝ) : (V.fin x).exp = V.fin (Real.exp x) := rfl

theorem V.divR_fin_of_ne (x e : ℝ) (he : e ≠ 0) :
    (V.fin x).divR e = V.fin (x / e) := by
  simp [V.divR, he]

/-! Index arithmetic for the torch `repeat` / `view` reshapes used by the
sigma-point expansion (amppi.py lines 186-191) and the cost regrouping
(lines 214-224).  A 3-D tensor is row-major: cell (i, k, a) of an
n x K x A tensor has flat offset (i*K + k)*A + a. -/

/-- Row i*P+j of the n*P expansion: the pair (sample i, sigma point j). -/
def pairIdx {n P : ℕ} (i : Fin n) (j : Fin P) : Fin (n * P) :=
  ⟨i.val * P + j.val, by
    have h1 : i.val * P + j.val < (i.val + 1) * P := by
      rw [Nat.succ_mul]; omega
    exact lt_of_lt_of_le h1 (Nat.mul_le_mul_right P (Nat.succ_le_of_lt i.isLt))⟩

theorem mod_lt_of_lt_mul {k P H : ℕ} (hk : k < P * H) : k % H < H := by
  have hH : 0 < H := by
    rcases Nat.eq_zero_or_pos H with h | h
    · subst h; rw [Nat.mul_zero] at hk; omega
    · exact h
  exact Nat.mod_lt _ hH

theorem flat_div_lt {r t n P H : ℕ} (hr : r < n * P) (ht : t < H) :
    (r * H + t) / (P * H) < n := by
  have hP : 0 < P := by
    rcases Nat.eq_zero_or_pos P with h | h
    · subst h; rw [Nat.mul_zero] at hr; omega
    · exact h
  have hH : 0 < H := lt_of_le_of_lt (Nat.zero_le t) ht
  have hPH : 0 < P * H := Nat.mul_pos hP hH
  rw [Nat.div_lt_iff_lt_mul hPH]
  have h1 : r * H + t < (r + 1) * H := by rw [Nat.succ_mul]; omega
  have h2 : (r + 1) * H ≤ n * P * H :=
    Nat.mul_le_mul_right H (Nat.succ_le_of_lt hr)
  calc r * H + t < (r + 1) * H := h1
    _ ≤ n * P * H := h2
    _ = n * (P * H) := Nat.mul_assoc n P H

/-- tensor.repeat(1, P, 1) on an n x H x A tensor: the time axis is tiled
P times, giving an n x (P*H) x A tensor. -/
def repeat_dim1 {n H A : ℕ} (P : ℕ) (x : Fin n → Fin H → Fin A → ℝ) :
    Fin n → Fin (P * H) → Fin A → ℝ :=
  fun i k a => x i ⟨k.val % H, mod_lt_of_lt_mul k.isLt⟩ a

theorem mul_pos_of_fin {n P H : ℕ} (r : Fin (n * P)) (t : Fin H) : 0 < P * H := by
  have hP : 0 < P := by
    rcases Nat.eq_zero_or_pos P with h | h
    · exfalso; rw [h, Nat.mul_zero] at r; exact absurd r.isLt (by omega)
    · exact h
  exact Nat.mul_pos hP (lt_of_le_of_lt (Nat.zero_le _) t.isLt)

/-- tensor.view(-1, H, A) on an n x (P*H) x A tensor: row-major reindexing
to an (n*P) x H x A tensor. -/
def view_flat3 {n P H A : ℕ} (y : Fin n → Fin (P * H) → Fin A → ℝ) :
    Fin (n * P) → Fin H → Fin A → ℝ :=
  fun r t a =>
    y ⟨(r.val * H + t.val) / (P * H), flat_div_lt r.isLt t.isLt⟩
      ⟨(r.val * H + t.val) % (P * H), Nat.mod_lt _ (mul_pos_of_fin r t)⟩ a

/-- tensor.repeat(n, 1) on a P x D tensor: the rows are tiled n times,
giving an (n*P) x D tensor. -/
def repeat_dim0 {P D : ℕ} (n : ℕ) (y : Fin P → Fin D → ℝ) :
    Fin (n * P) → Fin D → ℝ :=
  fun r d =>
    y ⟨r.val % P, by
      have hP : 0 < P := by
        rcases Nat.eq_zero_or_pos P with h | h
        · exfalso; rw [h, Nat.mul_zero] at r; exact absurd r.isLt (by omega)
        · exact h
      exact Nat.mod_lt _ hP⟩ d

/-- tensor.reshape(-1, S) on an n x H x S tensor: row-major flattening of
the first two axes (amppi.py line 214). -/
def flatten_rows {n H S : ℕ} (x : Fin n → Fin H → Fin S → ℝ) :
    Fin (n * H) → Fin S → ℝ :=
  fun r =>
    x ⟨r.val / H, by
        have hH : 0 < H := by
          rcases Nat.eq_zero_or_pos H with h | h
          · exfalso; rw [h, Nat.mul_zero] at r; exact absurd r.isLt (by omega)
          · exact h
        rw [Nat.div_lt_iff_lt_mul hH]; exact r.isLt⟩
      ⟨r.val % H, by
        have hH : 0 < H := by
          rcases Nat.eq_zero_or_pos H with h | h
          · exfalso; rw [h, Nat.mul_zero] at r; exact absurd r.isLt (by omega)
          · exact h
        exact Nat.mod_lt _ hH⟩

/-- tensor.view(-1, H) on a flat vector of n*H cells (any cell type). -/
def view2 {n H : ℕ} {α : Type} (w : Fin (n * H) → α) : Fin n → Fin H → α :=
  fun i t => w (pairIdx i t)

/-! The forward-model collaborator (models/base.py interface as consumed by
amppi.py): a batched step function, a parameter sampler, a converter from
flat sigma-point coordinates to the named-parameter dictionary, and the
`params_dist` attribute object probed by _sample_sigma_trajectories. -/

/-- One component of a mixture distribution, exposing its mean `m` and its
covariance `S` (the attributes read at amppi.py lines 178-179). -/
structure MixComponent (D : ℕ) where
  m : Fin D → ℝ
  S : Matrix (Fin D) (Fin D) ℝ

/-- The attribute surface of `model.params_dist` as probed by the
try/except chain of _sample_sigma_trajectories: each field is `none` when
reading the attribute raises AttributeError. -/
structure ParamsDistObj (D k : ℕ) where
  covariance_matrix : Option (Matrix (Fin D) (Fin D) ℝ)
  variance : Option (Fin D → ℝ)
  mean : Option (Fin D → ℝ)
  a : Option (Fin k → ℝ)
  xs : Option (Fin k → MixComponent D)

/-- Python attribute access: `none` raises AttributeError. -/
def getattr {α : Type} : Option α → Except Unit α
  | some x => .ok x
  | none => .error ()

/-- One comparison step of the argmax scan: keep the earlier index on
ties, replace it only on a strictly larger value. -/
def argmax_step {k : ℕ} (a : Fin k → ℝ) (acc : Option (Fin k)) (j : Fin k) :
    Option (Fin k) :=
  match acc with
  | none => some j
  | some b => if a b < a j then some j else some b

/-- tensor.argmax on a length-k vector: the first index attaining the
maximum; `none` on an empty tensor (a runtime error in torch). -/
def argmax {k : ℕ} (a : Fin k → ℝ) : Option (Fin k) :=
  (List.finRange k).foldl (argmax_step a) none

/-- The try/except chain of _sample_sigma_trajectories (amppi.py lines
169-179): try (covariance_matrix, mean); on AttributeError try
(variance.diag(), mean); on AttributeError read the mixture attributes
a and xs and take the component of largest weight.  An AttributeError in
the last branch propagates (fail loudly). -/
def extract_mean_cov {D k : ℕ} (d : ParamsDistObj D k) :
    Except Unit ((Fin D → ℝ) × Matrix (Fin D) (Fin D) ℝ) :=
  match (do
      let covariance ← getattr d.covariance_matrix
      let mean ← getattr d.mean
      pure (mean, covariance) : Except Unit _) with
  | .ok r => .ok r
  | .error _ =>
    match (do
        let variance ← getattr d.variance
        let mean ← getattr d.mean
        pure (mean, Matrix.diagonal variance) : Except Unit _) with
    | .ok r => .ok r
    | .error _ => do
      let a ← getattr d.a
      let xs ← getattr d.xs
      match argmax a with
      | some idx => pure ((xs idx).m, (xs idx).S)
      | none => .error ()

/-- Three-representation extraction exactly as the spec's section 4.3
words it: (a) mean and full covariance; (b) mean and diagonal variance,
diagonalized; (c) the mixture component of highest weight; otherwise a
fatal error.  Written from the spec, to be compared with
`extract_mean_cov` which is written from the source. -/
def extract_mean_cov_spec {D k : ℕ} (d : ParamsDistObj D k) :
    Except Unit ((Fin D → ℝ) × Matrix (Fin D) (Fin D) ℝ) :=
  match d.covariance_matrix, d.mean with
  | some c, some m => .ok (m, c)
  | _, _ =>
    match d.variance, d.mean with
    | some v, some m => .ok (m, Matrix.diagonal v)
    | _, _ =>
      match d.a, d.xs with
      | some a, some xs =>
        match argmax a with
        | some idx => .ok ((xs idx).m, (xs idx).S)
        | none => .error ()
      | _, _ => .error ()

/-- The forward-model interface consumed by the controller. -/
structure ForwardModel (dim_s dim_a D k : ℕ) (Param : Type) where
  step : ∀ {m : ℕ},
    (Fin m → Fin dim_s → ℝ) → (Fin m → Fin dim_a → ℝ) → Option Param →
      Fin m → Fin dim_s → ℝ
  sample_params : ℕ → Param
  to_params_dict : ∀ {m : ℕ}, (Fin m → Fin D → ℝ) → Param
  params_dist : ParamsDistObj D k

/-- The sigma-point transform collaborator (utils/utf.py interface):
`compute_sigma_points` returns a D x P matrix whose columns are the P
sigma points, and `loc_weights` are the P location weights. -/
structure MerweScaledUTF (D P : ℕ) where
  compute_sigma_points :
    (Fin D → ℝ) → Matrix (Fin D) (Fin D) ℝ → Matrix (Fin D) (Fin P) ℝ
  loc_weights : Fin P → ℝ

/-! Trajectory rollout (amppi.py lines 134-149 and 186-199). -/

/-- The rollout loop `for t in range(hz_len): states[:, t+1] = step(...)`:
row t of the state array, as a recursion over t.  The same step closure
(and so the same sampled-parameter set) is applied at every t. -/
def rollout_states {m dim_s dim_a : ℕ}
    (step : (Fin m → Fin dim_s → ℝ) → (Fin m → Fin dim_a → ℝ) →
      Fin m → Fin dim_s → ℝ)
    (s0 : Fin m → Fin dim_s → ℝ)
    (acts : ℕ → Fin m → Fin dim_a → ℝ) : ℕ → Fin m → Fin dim_s → ℝ
  | 0 => s0
  | t + 1 => step (rollout_states step s0 acts t) (acts t)

/-- Python truthiness of `self.__params_sample_shape` at amppi.py line
141: `None` and `0` are falsy, so the parameter sample is drawn only for
a non-zero sample shape. -/
def sampled_params_of {Param : Type} (shape : Option ℕ) (sample : ℕ → Param) :
    Option Param :=
  match shape with
  | some sh => if sh ≠ 0 then some (sample sh) else none
  | none => none

/-- Time row t of the candidate actions, with junk beyond the horizon
(the rollout loop only reads t < H). -/
def acts_row {n H A : ℕ} (actions : Fin n → Fin H → Fin A → ℝ) (t : ℕ) :
    Fin n → Fin A → ℝ :=
  fun i a => if h : t < H then actions i ⟨t, h⟩ a else 0

/-- _sample_trajectories (amppi.py lines 121-149): the Gaussian draw eps
is an input (the only consumption of the random source); returns
(actions, states, eps). -/
def sample_trajectories {n H dim_a dim_s D k : ℕ} {Param : Type}
    (model : ForwardModel dim_s dim_a D k Param) (shape : Option ℕ)
    (a_seq : Fin H → Fin dim_a → ℝ)
    (eps : Fin n → Fin H → Fin dim_a → ℝ) (state : Fin dim_s → ℝ) :
    (Fin n → Fin H → Fin dim_a → ℝ) ×
      (Fin n → Fin (H + 1) → Fin dim_s → ℝ) ×
      (Fin n → Fin H → Fin dim_a → ℝ) :=
  let actions : Fin n → Fin H → Fin dim_a → ℝ :=
    fun i t a => eps i t a + a_seq t a
  let sampled_params := sampled_params_of shape model.sample_params
  let states : Fin n → Fin (H + 1) → Fin dim_s → ℝ :=
    fun i t s =>
      rollout_states (fun st ac => model.step st ac sampled_params)
        (fun _ => state) (acts_row actions) t.val i s
  (actions, states, eps)

/-- The expanded action batch of _sample_sigma_trajectories (line 186):
`actions.repeat(1, tf.pts, 1).view(-1, hz_len, dim_a)`. -/
def sigma_expanded_actions {n H dim_a : ℕ} (P : ℕ)
    (actions : Fin n → Fin H → Fin dim_a → ℝ) :
    Fin (n * P) → Fin H → Fin dim_a → ℝ :=
  view_flat3 (repeat_dim1 P actions)

/-- The expanded sigma-point rows of _sample_sigma_trajectories (line
190): `params_sp.T.repeat(n_samples, 1)`. -/
def sigma_expanded_params {D P : ℕ} (n : ℕ)
    (params_sp : Matrix (Fin D) (Fin P) ℝ) : Fin (n * P) → Fin D → ℝ :=
  repeat_dim0 n (fun p d => params_sp d p)

/-- The n*P x (H+1) x dim_s state array rolled out by
_sample_sigma_trajectories (lines 192-199), given the extracted mean and
covariance. -/
def sigma_states {n H dim_a dim_s D k P : ℕ} {Param : Type}
    (model : ForwardModel dim_s dim_a D k Param) (tf : MerweScaledUTF D P)
    (a_seq : Fin H → Fin dim_a → ℝ)
    (eps : Fin n → Fin H → Fin dim_a → ℝ) (state : Fin dim_s → ℝ)
    (mean : Fin D → ℝ) (covariance : Matrix (Fin D) (Fin D) ℝ) :
    Fin (n * P) → Fin (H + 1) → Fin dim_s → ℝ :=
  let params_sp := tf.compute_sigma_points mean covariance
  let actions : Fin n → Fin H → Fin dim_a → ℝ :=
    fun i t a => eps i t a + a_seq t a
  let acts_sp := sigma_expanded_actions P actions
  let sampled_params := model.to_params_dict (sigma_expanded_params n params_sp)
  fun r t s =>
    rollout_states (fun st ac => model.step st ac (some sampled_params))
      (fun _ => state) (acts_row acts_sp) t.val r s

/-- _sample_sigma_trajectories (amppi.py lines 151-200): extraction of
mean and covariance may raise; on success returns (actions, states_sp,
eps) where only the state batch is expanded across sigma points. -/
def sample_sigma_trajectories {n H dim_a dim_s D k P : ℕ} {Param : Type}
    (model : ForwardModel dim_s dim_a D k Param) (tf : MerweScaledUTF D P)
    (a_seq : Fin H → Fin dim_a → ℝ)
    (eps : Fin n → Fin H → Fin dim_a → ℝ) (state : Fin dim_s → ℝ) :
    Except Unit
      ((Fin n → Fin H → Fin dim_a → ℝ) ×
        (Fin (n * P) → Fin (H + 1) → Fin dim_s → ℝ) ×
        (Fin n → Fin H → Fin dim_a → ℝ)) :=
  match extract_mean_cov model.params_dist with
  | .error e => .error e
  | .ok (mean, covariance) =>
    .ok (fun i t a => eps i t a + a_seq t a,
      sigma_states model tf a_seq eps state mean covariance, eps)

/-! Cost aggregation (_compute_cost, amppi.py lines 202-234). -/

/-- Per-row instantaneous costs before the horizon sum:
`inst_cost_fn(states[:, 1:].reshape(-1, dim_s))` on an m-row state batch
(line 214). -/
def inst_flat {m H dim_s : ℕ} (inst_cost_fn : (Fin dim_s → ℝ) → V)
    (states : Fin m → Fin (H + 1) → Fin dim_s → ℝ) : Fin (m * H) → V :=
  fun r => inst_cost_fn (flatten_rows (fun i t => states i t.succ) r)

/-- `inst_costs.view(-1, hz_len).sum(dim=1)` (line 215). -/
def inst_sum {m H dim_s : ℕ} (inst_cost_fn : (Fin dim_s → ℝ) → V)
    (states : Fin m → Fin (H + 1) → Fin dim_s → ℝ) : Fin m → V :=
  fun i => ∑ t : Fin H, view2 (inst_flat inst_cost_fn states) i t

/-- `term_cost_fn(states[:, -1])` (line 216). -/
def term_costs {m H dim_s : ℕ} (term_cost_fn : (Fin dim_s → ℝ) → V)
    (states : Fin m → Fin (H + 1) → Fin dim_s → ℝ) : Fin m → V :=
  fun i => term_cost_fn (states i (Fin.last H))

/-- Control-effort costs (lines 230-232): for each sample, lambda times
the trace of `a_seq · a_pre · eps_i^T` (diagonal of the H x H product,
summed). -/
def ctrl_costs {n H dim_a : ℕ} (lambda_ : ℝ)
    (a_seq : Fin H → Fin dim_a → ℝ) (a_pre : Matrix (Fin dim_a) (Fin dim_a) ℝ)
    (eps : Fin n → Fin H → Fin dim_a → ℝ) : Fin n → ℝ :=
  fun i =>
    lambda_ *
      Matrix.trace (Matrix.of (a_seq) * a_pre * (Matrix.of (eps i)).transpose)

/-- _compute_cost in plain mode (`self.__tf` is None): total cost
`term_costs + inst_costs + ctrl_costs` per sample. -/
def compute_cost {n H dim_a dim_s : ℕ} (lambda_ : ℝ)
    (a_seq : Fin H → Fin dim_a → ℝ) (a_pre : Matrix (Fin dim_a) (Fin dim_a) ℝ)
    (inst_cost_fn term_cost_fn : (Fin dim_s → ℝ) → V)
    (states : Fin n → Fin (H + 1) → Fin dim_s → ℝ)
    (eps : Fin n → Fin H → Fin dim_a → ℝ) : Fin n → V :=
  fun i =>
    term_costs term_cost_fn states i + inst_sum inst_cost_fn states i +
      V.fin (ctrl_costs lambda_ a_seq a_pre eps i)

/-- The sigma-point reduction `th.matmul(costs.view(-1, tf.pts),
tf.loc_weights)` (lines 219-224): each sample's group of P rows collapses
to one quadrature-weighted value. -/
def sigma_reduce {n P : ℕ} (loc_weights : Fin P → ℝ)
    (w : Fin (n * P) → V) : Fin n → V :=
  fun g => ∑ j : Fin P, V.smul (loc_weights j) (view2 w g j)

/-- _compute_cost in sigma-point mode (`self.__tf` set): the per-row
instantaneous and terminal costs over the n*P batch are reduced per
sample with the location weights before the control cost is added. -/
def compute_cost_sigma {n H dim_a dim_s D P : ℕ} (lambda_ : ℝ)
    (a_seq : Fin H → Fin dim_a → ℝ) (a_pre : Matrix (Fin dim_a) (Fin dim_a) ℝ)
    (inst_cost_fn term_cost_fn : (Fin dim_s → ℝ) → V)
    (tf : MerweScaledUTF D P)
    (states : Fin (n * P) → Fin (H + 1) → Fin dim_s → ℝ)
    (eps : Fin n → Fin H → Fin dim_a → ℝ) : Fin n → V :=
  fun g =>
    sigma_reduce tf.loc_weights (term_costs term_cost_fn states) g +
      sigma_reduce tf.loc_weights (inst_sum inst_cost_fn states) g +
      V.fin (ctrl_costs lambda_ a_seq a_pre eps g)

/-! Importance-weighted update (update_actions, amppi.py lines 236-282). -/

/-- The set of samples with a finite cost:
`costs.masked_select(th.isfinite(costs))` keeps exactly these entries. -/
def finite_idx {n : ℕ} (costs : Fin n → V) : Finset (Fin n) :=
  Finset.univ.filter (fun i => (costs i).isfinite = true)

/-- `beta = finite_costs.min()` (line 264); junk 0 when no cost is finite
(the source only reads beta on the success path). -/
def beta {n : ℕ} (costs : Fin n → V) : ℝ :=
  if h : (finite_idx costs).Nonempty then
    (finite_idx costs).inf' h (fun i => (costs i).toR)
  else 0

/-- `eta = th.exp((-1/lambda_)*(finite_costs - beta)).sum()` (lines
266-268): the partition constant over the finite costs only. -/
def eta {n : ℕ} (lambda_ : ℝ) (costs : Fin n → V) : ℝ :=
  ∑ i ∈ finite_idx costs,
    Real.exp ((-1 / lambda_) * ((costs i).toR - beta costs))

/-- `omega = th.exp((-1/lambda_)*(costs - beta)) / eta` (lines 269-271),
elementwise over all n samples with IEEE propagation of non-finite
costs. -/
def omega {n : ℕ} (lambda_ : ℝ) (costs : Fin n → V) : Fin n → V :=
  fun i =>
    V.divR (V.exp (V.smul (-1 / lambda_) ((costs i).subR (beta costs))))
      (eta lambda_ costs)

/-- `omega.where(th.isfinite(omega), 0.0)` (lines 273-275): non-finite
weights are replaced by exactly zero for the sequence update. -/
def bounded_omega {n : ℕ} (lambda_ : ℝ) (costs : Fin n → V) : Fin n → V :=
  fun i =>
    if (omega lambda_ costs i).isfinite then omega lambda_ costs i
    else V.fin 0

/-- th.clamp(x, lo, hi) on one cell: max with lo, then min with hi. -/
def clamp (x lo hi : ℝ) : ℝ := min (max x lo) hi

/-- The result of update_actions: the failure path returns the pair
`(float('inf'), th.zeros(1))`, the success path the 4-tuple
`(cost, states, actions, omega)` — structurally different shapes. -/
inductive UpdateResult (n m H dim_a dim_s : ℕ) where
  | failure (cost : V) (omega : Fin 1 → ℝ)
  | success (cost : ℝ) (states : Fin m → Fin (H + 1) → Fin dim_s → ℝ)
      (actions : Fin n → Fin H → Fin dim_a → ℝ) (omega : Fin n → V)

/-- What one update_actions call produces: the returned value, the new
`self.a_seq`, and whether the infeasible-control warning was printed. -/
structure UpdateOutcome (n m H dim_a dim_s : ℕ) where
  result : UpdateResult n m H dim_a dim_s
  a_seq : Fin H → Fin dim_a → ℝ
  warned : Bool

/-- update_actions after the costs are known (amppi.py lines 254-282):
the empty-finite-subset test, the weight computation, the masked
tensordot update of `self.a_seq` with the final clamp, and the reported
(cost, states, actions, omega). -/
def update_actions_core {n m H dim_a dim_s : ℕ} (lambda_ min_a max_a : ℝ)
    (a_seq : Fin H → Fin dim_a → ℝ) (costs : Fin n → V)
    (eps : Fin n → Fin H → Fin dim_a → ℝ)
    (states : Fin m → Fin (H + 1) → Fin dim_s → ℝ)
    (actions : Fin n → Fin H → Fin dim_a → ℝ) :
    UpdateOutcome n m H dim_a dim_s :=
  if finite_idx costs = ∅ then
    ⟨.failure V.pinf (fun _ => 0), a_seq, true⟩
  else
    ⟨.success
        (∑ i ∈ finite_idx costs,
          (omega lambda_ costs i).toR * (costs i).toR)
        states actions (omega lambda_ costs),
      fun t a =>
        clamp
          (a_seq t a +
            ∑ i : Fin n, (bounded_omega lambda_ costs i).toR * eps i t a)
          min_a max_a,
      false⟩

/-- update_actions in plain mode (lines 250-253 take the `else` branch). -/
def update_actions {n H dim_a dim_s D k : ℕ} {Param : Type}
    (model : ForwardModel dim_s dim_a D k Param) (shape : Option ℕ)
    (lambda_ min_a max_a : ℝ) (a_seq : Fin H → Fin dim_a → ℝ)
    (a_pre : Matrix (Fin dim_a) (Fin dim_a) ℝ)
    (inst_cost_fn term_cost_fn : (Fin dim_s → ℝ) → V)
    (eps : Fin n → Fin H → Fin dim_a → ℝ) (state : Fin dim_s → ℝ) :
    UpdateOutcome n n H dim_a dim_s :=
  let out := sample_trajectories model shape a_seq eps state
  let costs :=
    compute_cost lambda_ a_seq a_pre inst_cost_fn term_cost_fn out.2.1 out.2.2
  update_actions_core lambda_ min_a max_a a_seq costs out.2.2 out.2.1 out.1

/-- update_actions in sigma-point mode (lines 250-251 take the `if`
branch); a failed mean/covariance extraction propagates as an error. -/
def update_actions_sigma {n H dim_a dim_s D k P : ℕ} {Param : Type}
    (model : ForwardModel dim_s dim_a D k Param) (tf : MerweScaledUTF D P)
    (lambda_ min_a max_a : ℝ) (a_seq : Fin H → Fin dim_a → ℝ)
    (a_pre : Matrix (Fin dim_a) (Fin dim_a) ℝ)
    (inst_cost_fn term_cost_fn : (Fin dim_s → ℝ) → V)
    (eps : Fin n → Fin H → Fin dim_a → ℝ) (state : Fin dim_s → ℝ) :
    Except Unit (UpdateOutcome n (n * P) H dim_a dim_s) :=
  match sample_sigma_trajectories model tf a_seq eps state with
  | .error e => .error e
  | .ok (actions, states_sp, eps') =>
    let costs :=
      compute_cost_sigma lambda_ a_seq a_pre inst_cost_fn term_cost_fn tf
        states_sp eps'
    .ok (update_actions_core lambda_ min_a max_a a_seq costs eps' states_sp
      actions)

/-- The per-sample cost vector a sigma-mode update computes once the mean
and covariance are extracted (the composition of lines 251 and 254). -/
def sigma_costs {n H dim_a dim_s D k P : ℕ} {Param : Type}
    (model : ForwardModel dim_s dim_a D k Param) (tf : MerweScaledUTF D P)
    (lambda_ : ℝ) (a_seq : Fin H → Fin dim_a → ℝ)
    (a_pre : Matrix (Fin dim_a) (Fin dim_a) ℝ)
    (inst_cost_fn term_cost_fn : (Fin dim_s → ℝ) → V)
    (eps : Fin n → Fin H → Fin dim_a → ℝ) (state : Fin dim_s → ℝ)
    (mean : Fin D → ℝ) (covariance : Matrix (Fin D) (Fin D) ℝ) :
    Fin n → V :=
  compute_cost_sigma lambda_ a_seq a_pre inst_cost_fn term_cost_fn tf
    (sigma_states model tf a_seq eps state mean covariance) eps

end Disco

namespace DiscoBase

/-! Rejection sampling (models/base.py lines 99-179), modelled computably
over ℚ.  The distribution's random source is a stream of joint draws
(`stream c` is the c-th draw); each `params_dist.sample([j])` call
consumes the next j draws.  A `none` stands for the nan that the two
`where` masks write into an out-of-bounds cell. -/

/-- The two masking lines 126-131: a cell survives only when
`x_min < v` and `x_max > v` (both strict); otherwise it becomes nan. -/
def valid_entry (x_min x_max v : ℚ) : Option ℚ :=
  match (if x_min < v then some v else none) with
  | some w => if x_max > w then some w else none
  | none => none

/-- A joint draw is kept iff no cell was masked to nan (lines 133-146:
the row is dropped when its nan-sum test fires, i.e. when any cell is
nan). -/
def accept_row {D : ℕ} (x_min x_max : ℚ) (row : Fin D → ℚ) : Bool :=
  (List.finRange D).all (fun d => (valid_entry x_min x_max (row d)).isSome)

/-- The `while n_accepts < n_samples` loop of rejection_sampling (lines
123-147), with explicit fuel for the loop's potential divergence: each
pass draws `n_samples - n_accepts` fresh joint samples from the stream,
keeps the accepted ones, and counts one attempt. -/
def rej_loop {D : ℕ} (stream : ℕ → Fin D → ℚ) (x_min x_max : ℚ) (n : ℕ) :
    ℕ → ℕ → List (Fin D → ℚ) → ℕ → Option (List (Fin D → ℚ) × ℕ)
  | 0, _, _, _ => none
  | fuel + 1, cursor, samples, n_attempts =>
    if samples.length < n then
      rej_loop stream x_min x_max n fuel (cursor + (n - samples.length))
        (samples ++ ((List.range (n - samples.length)).map
          (fun j => stream (cursor + j))).filter
          (fun row => accept_row x_min x_max row))
        (n_attempts + 1)
    else some (samples, n_attempts)

/-- rejection_sampling (lines 99-149): returns the accepted samples (one
row per joint sample) and the attempt count; `none` when the given fuel
runs out (the loop would still be running). -/
def rejection_sampling {D : ℕ} (stream : ℕ → Fin D → ℚ) (x_min x_max : ℚ)
    (num_samples fuel : ℕ) : Option (List (Fin D → ℚ) × ℕ) :=
  rej_loop stream x_min x_max num_samples fuel 0 [] 0

/-- sample_params (lines 151-179): asserts that a distribution is
configured and that at least one sample is requested, then returns the
mapping from each uncertain-parameter index to its column of sampled
values. -/
def sample_params {D : ℕ} (params_dist : Option (ℕ → Fin D → ℚ))
    (x_min x_max : ℚ) (num_samples fuel : ℕ) :
    Option (Fin D → List ℚ) :=
  match params_dist with
  | none => none
  | some stream =>
    if num_samples = 0 then none
    else
      (rejection_sampling stream x_min x_max num_samples fuel).map
        (fun p => fun key => p.1.map (fun row => row key))

/-- The first draw of the C9 counterexample stream sits exactly on the
lower bound; the second is strictly inside. -/
def c9_stream : ℕ → Fin 1 → ℚ := fun c _ => if c = 0 then 0 else 1

end DiscoBase

namespace DiscoBase

theorem valid_entry_isSome {xm xM v : ℚ} :
    (valid_entry xm xM v).isSome = true ↔ xm < v ∧ v < xM := by
  rw [valid_entry]
  by_cases h1 : xm < v
  · rw [if_pos h1]
    by_cases h2 : xM > v
    · simp [h1, h2]
    · simp [h1, h2]
  · rw [if_neg h1]
    simp [h1]

theorem accept_row_iff {D : ℕ} {xm xM : ℚ} {row : Fin D → ℚ} :
    accept_row xm xM row = true ↔ ∀ d, xm < row d ∧ row d < xM := by
  rw [accept_row, List.all_eq_true]
  constructor
  · intro h d
    exact valid_entry_isSome.mp (h d (List.mem_finRange d))
  · intro h d _
    exact valid_entry_isSome.mpr (h d)

theorem rej_loop_inv {D : ℕ} (stream : ℕ → Fin D → ℚ) (xm xM : ℚ)
    (n : ℕ) :
    ∀ (fuel cursor : ℕ) (samples : List (Fin D → ℚ)) (att : ℕ)
      (out : List (Fin D → ℚ) × ℕ),
      samples = ((List.range cursor).map stream).filter
        (fun row => accept_row xm xM row) →
      samples.length ≤ n →
      rej_loop stream xm xM n fuel cursor samples att = some out →
      out.1.length = n ∧
        ∃ m, out.1 = ((List.range m).map stream).filter
          (fun row => accept_row xm xM row) := by
  intro fuel
  induction fuel with
  | zero =>
    intro cursor samples att out _ _ h
    rw [rej_loop] at h
    exact Option.noConfusion h
  | succ fuel ih =>
    intro cursor samples att out hs hlen h
    rw [rej_loop] at h
    by_cases hlt : samples.length < n
    · rw [if_pos hlt] at h
      refine ih _ _ _ _ ?_ ?_ h
      · rw [hs, List.range_add, List.map_append, List.filter_append]
        congr 1
        rw [List.map_map]
        rfl
      · rw [List.length_append]
        have hfb : (((List.range (n - samples.length)).map
            (fun j => stream (cursor + j))).filter
            (fun row => accept_row xm xM row)).length ≤
            n - samples.length := by
          calc (((List.range (n - samples.length)).map
              (fun j => stream (cursor + j))).filter
              (fun row => accept_row xm xM row)).length ≤
              (((List.range (n - samples.length)).map
                (fun j => stream (cursor + j)))).length :=
                List.length_filter_le _ _
            _ = n - samples.length := by
                rw [List.length_map, List.length_range]
        omega
    · rw [if_neg hlt] at h
      have hout : (samples, att) = out := Option.some.inj h
      rw [← hout]
      exact ⟨le_antisymm hlen (not_lt.mp hlt), ⟨cursor, hs⟩⟩

/-- C9 (amended).  sample_params asserts when no distribution is
configured; otherwise it maps each uncertain-parameter index to its
column of the rejection-sampling output; a draw is accepted iff every
coordinate lies strictly inside (x_min, x_max) — draws on the boundary
of the closed interval are rejected too — and whenever the sampling loop
returns, its output is exactly the accepted draws of the consumed stream
prefix, in order, with exactly num_samples of them. -/
theorem C9_rejection_sampling_strict {D : ℕ} (stream : ℕ → Fin D → ℚ)
    (xm xM : ℚ) (n fuel : ℕ) (samples : List (Fin D → ℚ)) (att : ℕ) :
    (sample_params (D := D) none xm xM n fuel = none) ∧
    (n ≠ 0 → sample_params (some stream) xm xM n fuel =
      (rejection_sampling stream xm xM n fuel).map
        (fun p => fun key => p.1.map (fun row => row key))) ∧
    (∀ row : Fin D → ℚ,
      accept_row xm xM row = true ↔ ∀ d, xm < row d ∧ row d < xM) ∧
    (rejection_sampling stream xm xM n fuel = some (samples, att) →
      samples.length = n ∧
        ∃ m, samples = ((List.range m).map stream).filter
          (fun row => accept_row xm xM row)) := by
  refine ⟨rfl, fun hn => ?_, fun row => accept_row_iff, fun h => ?_⟩
  · rw [sample_params, if_neg hn]
  · have := rej_loop_inv stream xm xM n fuel 0 [] 0 (samples, att)
      (by simp) (Nat.zero_le n) h
    exact this

/-- Counterexample to C9 as stated: with bounds [0, 2], the draw equal to
0 lies inside the closed interval yet is rejected (the code's masks are
strict), so the first accepted sample is the later draw 1 and two
attempts are needed. -/
theorem C9_counterexample :
    accept_row (D := 1) 0 2 (c9_stream 0) = false ∧
      ((0 : ℚ) ≤ c9_stream 0 0 ∧ c9_stream 0 0 ≤ 2) ∧
      (rejection_sampling c9_stream 0 2 1 3).map
        (fun p => p.1.map (fun row => row 0)) = some [1] ∧
      (rejection_sampling c9_stream 0 2 1 3).map (fun p => p.2) = some 2 := by
  refine ⟨by decide, ⟨by decide, by decide⟩, by decide, by decide⟩

end DiscoBase

namespace Disco

theorem mem_finite_idx {n : ℕ} {costs : Fin n → V} {i : Fin n} :
    i ∈ finite_idx costs ↔ (costs i).isfinite = true := by
  simp [finite_idx]

theorem isfinite_iff_fin {v : V} : v.isfinite = true ↔ ∃ x, v = V.fin x := by
  cases v <;> simp [V.isfinite]

theorem eta_pos {n : ℕ} (lambda_ : ℝ) {costs : Fin n → V}
    (h : (finite_idx costs).Nonempty) : 0 < eta lambda_ costs :=
  Finset.sum_pos (fun _ _ => Real.exp_pos _) h

theorem omega_formula {n : ℕ} (lambda_ : ℝ) {costs : Fin n → V} {i : Fin n}
    (h : (finite_idx costs).Nonempty) (hi : i ∈ finite_idx costs) :
    omega lambda_ costs i =
      V.fin (Real.exp (-((costs i).toR - beta costs) / lambda_) /
        eta lambda_ costs) := by
  obtain ⟨x, hx⟩ := isfinite_iff_fin.mp (mem_finite_idx.mp hi)
  have harg : (-1 / lambda_) * (x - beta costs) =
      -(x - beta costs) / lambda_ := by ring
  rw [omega, hx]
  simp only [V.subR_fin, V.smul_fin, V.exp_fin, V.toR_fin]
  rw [V.divR_fin_of_ne _ _ (eta_pos lambda_ h).ne', harg]

/-- C1.  On the success path of update_actions the result carries the
weight vector `omega`, `beta` is the minimum of the finite costs, every
finite-cost sample's weight is `exp(-(cost - beta)/lambda) / eta` with
`eta` the partition sum over the finite costs, and the weights of the
finite-cost samples sum exactly to 1. -/
theorem C1_success_weights_normalized {n m H dim_a dim_s : ℕ}
    (lambda_ min_a max_a : ℝ) (a_seq : Fin H → Fin dim_a → ℝ)
    (costs : Fin n → V) (eps : Fin n → Fin H → Fin dim_a → ℝ)
    (states : Fin m → Fin (H + 1) → Fin dim_s → ℝ)
    (actions : Fin n → Fin H → Fin dim_a → ℝ)
    (h : (finite_idx costs).Nonempty) :
    (update_actions_core lambda_ min_a max_a a_seq costs eps states
        actions).result =
      UpdateResult.success
        (∑ i ∈ finite_idx costs, (omega lambda_ costs i).toR * (costs i).toR)
        states actions (omega lambda_ costs) ∧
    (∀ i ∈ finite_idx costs, beta costs ≤ (costs i).toR) ∧
    (∃ i ∈ finite_idx costs, beta costs = (costs i).toR) ∧
    (∀ i ∈ finite_idx costs,
      omega lambda_ costs i =
        V.fin (Real.exp (-((costs i).toR - beta costs) / lambda_) /
          eta lambda_ costs)) ∧
    ∑ i ∈ finite_idx costs, (omega lambda_ costs i).toR = 1 := by
  have hne : finite_idx costs ≠ ∅ := Finset.nonempty_iff_ne_empty.mp h
  refine ⟨?_, ?_, ?_, fun i hi => omega_formula lambda_ h hi, ?_⟩
  · rw [update_actions_core, if_neg hne]
  · intro i hi
    rw [beta, dif_pos h]
    exact Finset.inf'_le _ hi
  · rw [beta, dif_pos h]
    obtain ⟨i, hi, hval⟩ :=
      Finset.exists_mem_eq_inf' h (fun i => (costs i).toR)
    exact ⟨i, hi, hval⟩
  · have hsum : ∀ i ∈ finite_idx costs,
        (omega lambda_ costs i).toR =
          Real.exp ((-1 / lambda_) * ((costs i).toR - beta costs)) /
            eta lambda_ costs := by
      intro i hi
      rw [omega_formula lambda_ h hi, V.toR_fin]
      congr 1
      ring_nf
    rw [Finset.sum_congr rfl hsum, ← Finset.sum_div]
    exact div_self (eta_pos lambda_ h).ne'

def c1ex_costs : Fin 1 → V := fun _ => V.fin 0

def c1ex_a_seq : Fin 0 → Fin 1 → ℝ := fun _ _ => 0

def c1ex_eps : Fin 1 → Fin 0 → Fin 1 → ℝ := fun _ _ _ => 0

def c1ex_states : Fin 1 → Fin (0 + 1) → Fin 1 → ℝ := fun _ _ _ => 0

theorem c1ex_nonempty : (finite_idx c1ex_costs).Nonempty :=
  ⟨0, by simp [finite_idx, c1ex_costs]⟩

/-- Witness for C1 at the concrete cost vector [0]. -/
theorem C1_witness :
    (finite_idx c1ex_costs).Nonempty ∧
      ∑ i ∈ finite_idx c1ex_costs, (omega 1 c1ex_costs i).toR = 1 :=
  ⟨c1ex_nonempty,
    (C1_success_weights_normalized 1 (-1) 1 c1ex_a_seq c1ex_costs
        c1ex_eps c1ex_states c1ex_eps c1ex_nonempty).2.2.2.2⟩

/-- C2.  On every successful update the new nominal sequence is the old
one plus the masked-weight/noise contraction, clamped to the action
bounds; the masked weights zero exactly the non-finite entries of omega
while the reported weight vector stays unmasked; and every element of the
new nominal sequence lies within the action bounds. -/
theorem C2_update_clipped_in_bounds {n m H dim_a dim_s : ℕ}
    (lambda_ min_a max_a : ℝ) (a_seq : Fin H → Fin dim_a → ℝ)
    (costs : Fin n → V) (eps : Fin n → Fin H → Fin dim_a → ℝ)
    (states : Fin m → Fin (H + 1) → Fin dim_s → ℝ)
    (actions : Fin n → Fin H → Fin dim_a → ℝ)
    (h : (finite_idx costs).Nonempty) (hb : min_a ≤ max_a) :
    (update_actions_core lambda_ min_a max_a a_seq costs eps states
        actions).a_seq =
      (fun t a =>
        clamp
          (a_seq t a +
            ∑ i : Fin n, (bounded_omega lambda_ costs i).toR * eps i t a)
          min_a max_a) ∧
    (∀ i, (omega lambda_ costs i).isfinite = false →
      bounded_omega lambda_ costs i = V.fin 0) ∧
    (∀ i, (omega lambda_ costs i).isfinite = true →
      bounded_omega lambda_ costs i = omega lambda_ costs i) ∧
    (update_actions_core lambda_ min_a max_a a_seq costs eps states
        actions).result =
      UpdateResult.success
        (∑ i ∈ finite_idx costs, (omega lambda_ costs i).toR * (costs i).toR)
        states actions (omega lambda_ costs) ∧
    (∀ t a,
      min_a ≤
        (update_actions_core lambda_ min_a max_a a_seq costs eps states
          actions).a_seq t a ∧
      (update_actions_core lambda_ min_a max_a a_seq costs eps states
        actions).a_seq t a ≤ max_a) := by
  have hne : finite_idx costs ≠ ∅ := Finset.nonempty_iff_ne_empty.mp h
  have hseq : (update_actions_core lambda_ min_a max_a a_seq costs eps states
      actions).a_seq =
      (fun t a =>
        clamp
          (a_seq t a +
            ∑ i : Fin n, (bounded_omega lambda_ costs i).toR * eps i t a)
          min_a max_a) := by
    rw [update_actions_core, if_neg hne]
  refine ⟨hseq, ?_, ?_, ?_, ?_⟩
  · intro i hni
    rw [bounded_omega, hni]
    simp
  · intro i hfi
    rw [bounded_omega, hfi]
    simp
  · rw [update_actions_core, if_neg hne]
  · intro t a
    rw [hseq]
    constructor
    · exact le_min (le_trans (le_max_right _ _) (le_refl _)) hb |>.trans_eq rfl
    · exact min_le_right _ _

/-- Witness for C2 at the concrete cost vector [0] with bounds [-1, 1]. -/
theorem C2_witness :
    (finite_idx c1ex_costs).Nonempty ∧ ((-1 : ℝ) ≤ 1) ∧
      (∀ t a,
        (-1 : ℝ) ≤
          (update_actions_core 1 (-1) 1 c1ex_a_seq c1ex_costs c1ex_eps
            c1ex_states c1ex_eps).a_seq t a ∧
        (update_actions_core 1 (-1) 1 c1ex_a_seq c1ex_costs c1ex_eps
          c1ex_states c1ex_eps).a_seq t a ≤ 1) :=
  ⟨c1ex_nonempty, neg_le_self zero_le_one,
    (C2_update_clipped_in_bounds 1 (-1) 1 c1ex_a_seq c1ex_costs c1ex_eps
      c1ex_states c1ex_eps c1ex_nonempty (neg_le_self zero_le_one)).2.2.2.2⟩

/-- C3.  When every sampled cost is non-finite, update_actions warns,
leaves the nominal sequence untouched, and returns the degenerate
sentinel (infinite cost, the length-1 zero weight placeholder), which is
structurally distinct from any success result. -/
theorem C3_all_nonfinite_degenerate {n m H dim_a dim_s : ℕ}
    (lambda_ min_a max_a : ℝ) (a_seq : Fin H → Fin dim_a → ℝ)
    (costs : Fin n → V) (eps : Fin n → Fin H → Fin dim_a → ℝ)
    (states : Fin m → Fin (H + 1) → Fin dim_s → ℝ)
    (actions : Fin n → Fin H → Fin dim_a → ℝ)
    (h : finite_idx costs = ∅) :
    update_actions_core lambda_ min_a max_a a_seq costs eps states actions =
      ⟨UpdateResult.failure V.pinf (fun _ => 0), a_seq, true⟩ ∧
    (∀ cost states' actions' w,
      (update_actions_core lambda_ min_a max_a a_seq costs eps states
        actions).result ≠
        UpdateResult.success cost states' actions' w) := by
  have heq : update_actions_core lambda_ min_a max_a a_seq costs eps states
      actions = ⟨UpdateResult.failure V.pinf (fun _ => 0), a_seq, true⟩ := by
    rw [update_actions_core, if_pos h]
  exact ⟨heq, fun cost states' actions' w => by rw [heq]; simp⟩

def c3ex_costs : Fin 1 → V := fun _ => V.nan

theorem c3ex_empty : finite_idx c3ex_costs = ∅ := by
  rw [Finset.eq_empty_iff_forall_not_mem]
  intro i hi
  have := mem_finite_idx.mp hi
  simp [c3ex_costs, V.isfinite] at this

theorem apply2_congr {n H S : ℕ} (x : Fin n → Fin H → Fin S → ℝ)
    (a : Fin n) (b : Fin H) (i : Fin n) (t : Fin H) (ha : a = i)
    (hb : b = t) : x a b = x i t := by
  rw [ha, hb]

theorem pair_val_div {n H : ℕ} (i : Fin n) (t : Fin H) :
    (i.val * H + t.val) / H = i.val := by
  rw [Nat.add_comm, Nat.add_mul_div_right _ _
    (lt_of_le_of_lt (Nat.zero_le _) t.isLt),
    Nat.div_eq_of_lt t.isLt, Nat.zero_add]

theorem pair_val_mod {n H : ℕ} (i : Fin n) (t : Fin H) :
    (i.val * H + t.val) % H = t.val := by
  rw [Nat.add_comm, Nat.add_mul_mod_self_right, Nat.mod_eq_of_lt t.isLt]

theorem flatten_rows_pair {n H S : ℕ} (x : Fin n → Fin H → Fin S → ℝ)
    (i : Fin n) (t : Fin H) : flatten_rows x (pairIdx i t) = x i t := by
  apply apply2_congr
  · exact Fin.ext (pair_val_div i t)
  · exact Fin.ext (pair_val_mod i t)

theorem inst_sum_eq {m H dim_s : ℕ} (inst_cost_fn : (Fin dim_s → ℝ) → V)
    (states : Fin m → Fin (H + 1) → Fin dim_s → ℝ) (i : Fin m) :
    inst_sum inst_cost_fn states i =
      ∑ t : Fin H, inst_cost_fn (states i t.succ) := by
  refine Finset.sum_congr rfl (fun t _ => ?_)
  rw [view2, inst_flat, flatten_rows_pair]

theorem ctrl_costs_eq {n H dim_a : ℕ} (lambda_ : ℝ)
    (a_seq : Fin H → Fin dim_a → ℝ)
    (a_pre : Matrix (Fin dim_a) (Fin dim_a) ℝ)
    (eps : Fin n → Fin H → Fin dim_a → ℝ) (i : Fin n) :
    ctrl_costs lambda_ a_seq a_pre eps i =
      lambda_ *
        ∑ t : Fin H, Matrix.dotProduct (a_seq t) (a_pre.mulVec (eps i t)) := by
  rw [ctrl_costs]
  congr 1
  rw [Matrix.trace]
  refine Finset.sum_congr rfl (fun t _ => ?_)
  simp only [Matrix.diag_apply, Matrix.mul_apply, Matrix.transpose_apply,
    Matrix.of_apply, Matrix.mulVec, Matrix.dotProduct, Finset.sum_mul,
    Finset.mul_sum, mul_assoc]
  exact Finset.sum_comm

/-- C4.  Each sample's total cost is the terminal cost of its final
state, plus the per-step cost of every state but the initial one summed
over the horizon, plus lambda times the per-timestep quadratic form
`nominal[t]^T . precision . eps[i,t]` summed over the horizon (the
trace construction of the source). -/
theorem C4_cost_decomposition {n H dim_a dim_s : ℕ} (lambda_ : ℝ)
    (a_seq : Fin H → Fin dim_a → ℝ)
    (a_pre : Matrix (Fin dim_a) (Fin dim_a) ℝ)
    (inst_cost_fn term_cost_fn : (Fin dim_s → ℝ) → V)
    (states : Fin n → Fin (H + 1) → Fin dim_s → ℝ)
    (eps : Fin n → Fin H → Fin dim_a → ℝ) (i : Fin n) :
    compute_cost lambda_ a_seq a_pre inst_cost_fn term_cost_fn states eps
        i =
      term_cost_fn (states i (Fin.last H)) +
        (∑ t : Fin H, inst_cost_fn (states i t.succ)) +
        V.fin (lambda_ *
          ∑ t : Fin H, Matrix.dotProduct (a_seq t) (a_pre.mulVec (eps i t))) := by
  rw [compute_cost, term_costs, inst_sum_eq, ctrl_costs_eq]

/-- C5.  One plain-mode planning call: candidate actions are noise plus
the nominal sequence with no clipping, the state array starts at the
initial state on row 0 and advances by one model step per horizon index
with one shared parameter sample, and that sample is drawn exactly when
the configured sample shape is truthy (single or extended mode with a
non-zero count) and never otherwise. -/
theorem C5_plain_rollout {n H dim_a dim_s D k : ℕ} {Param : Type}
    (model : ForwardModel dim_s dim_a D k Param) (shape : Option ℕ)
    (a_seq : Fin H → Fin dim_a → ℝ)
    (eps : Fin n → Fin H → Fin dim_a → ℝ) (state : Fin dim_s → ℝ)
    (i : Fin n) (t : Fin H) (a : Fin dim_a) (s : Fin dim_s) :
    ((sample_trajectories model shape a_seq eps state).1 i t a =
      eps i t a + a_seq t a) ∧
    ((sample_trajectories model shape a_seq eps state).2.2 = eps) ∧
    ((sample_trajectories model shape a_seq eps state).2.1 i 0 s =
      state s) ∧
    ((sample_trajectories model shape a_seq eps state).2.1 i t.succ s =
      model.step
        (fun j => (sample_trajectories model shape a_seq eps state).2.1 j
          t.castSucc)
        (fun j => (sample_trajectories model shape a_seq eps state).1 j t)
        (sampled_params_of shape model.sample_params) i s) ∧
    (shape = none → sampled_params_of shape model.sample_params = none) ∧
    (∀ sh : ℕ, shape = some sh → sh ≠ 0 →
      sampled_params_of shape model.sample_params =
        some (model.sample_params sh)) ∧
    (shape = some 0 → sampled_params_of shape model.sample_params = none) := by
  have hacts : acts_row
      (fun (j : Fin n) (u : Fin H) (b : Fin dim_a) =>
        eps j u b + a_seq u b) t.val =
      fun j b => eps j t b + a_seq t b := by
    funext j b
    simp only [acts_row, dif_pos t.isLt, Fin.eta]
  have hstates : (sample_trajectories model shape a_seq eps state).2.1 =
      fun (j : Fin n) (u : Fin (H + 1)) (s' : Fin dim_s) =>
        rollout_states
          (fun st ac =>
            model.step st ac (sampled_params_of shape model.sample_params))
          (fun _ => state)
          (acts_row (fun (j' : Fin n) (u' : Fin H) (b : Fin dim_a) =>
            eps j' u' b + a_seq u' b))
          u.val j s' := rfl
  refine ⟨rfl, rfl, ?_, ?_, ?_, ?_, ?_⟩
  · rw [hstates]
    simp only [Fin.val_zero, rollout_states]
  · rw [hstates]
    simp only [Fin.val_succ, Fin.coe_castSucc, rollout_states, hacts]
    rfl
  · intro h
    rw [h, sampled_params_of]
  · intro sh hsh hne
    rw [hsh, sampled_params_of, if_pos hne]
  · intro h
    rw [h, sampled_params_of]
    simp

/-- Witness for C3 at the all-nan cost vector [nan]. -/
theorem C3_witness :
    finite_idx c3ex_costs = ∅ ∧
      update_actions_core 1 (-1) 1 c1ex_a_seq c3ex_costs c1ex_eps
          c1ex_states c1ex_eps =
        ⟨UpdateResult.failure V.pinf (fun _ => 0), c1ex_a_seq, true⟩ :=
  ⟨c3ex_empty,
    (C3_all_nonfinite_degenerate 1 (-1) 1 c1ex_a_seq c3ex_costs c1ex_eps
      c1ex_states c1ex_eps c3ex_empty).1⟩

theorem argmax_le_aux {k : ℕ} (a : Fin k → ℝ) :
    ∀ (l : List (Fin k)) (acc : Option (Fin k)) (i : Fin k),
      List.foldl (argmax_step a) acc l = some i →
      (∀ b, acc = some b → a b ≤ a i) ∧ ∀ j ∈ l, a j ≤ a i := by
  intro l
  induction l with
  | nil =>
    intro acc i h
    rw [List.foldl_nil] at h
    subst h
    refine ⟨fun b hb => ?_, by simp⟩
    have hbi : i = b := Option.some.inj hb
    subst hbi
    exact le_refl _
  | cons x l ih =>
    intro acc i h
    rw [List.foldl_cons] at h
    rcases acc with _ | b
    · rw [show argmax_step a none x = some x from rfl] at h
      obtain ⟨h1, h2⟩ := ih (some x) i h
      refine ⟨fun b hb => Option.noConfusion hb, fun j hj => ?_⟩
      rcases List.mem_cons.mp hj with rfl | hj'
      · exact h1 _ rfl
      · exact h2 _ hj'
    · rw [show argmax_step a (some b) x =
          (if a b < a x then some x else some b) from rfl] at h
      by_cases hlt : a b < a x
      · rw [if_pos hlt] at h
        obtain ⟨h1, h2⟩ := ih _ i h
        refine ⟨fun b' hb' => ?_, fun j hj => ?_⟩
        · have hbb : b = b' := Option.some.inj hb'
          subst hbb
          exact le_trans (le_of_lt hlt) (h1 x rfl)
        · rcases List.mem_cons.mp hj with rfl | hj'
          · exact h1 _ rfl
          · exact h2 _ hj'
      · rw [if_neg hlt] at h
        obtain ⟨h1, h2⟩ := ih _ i h
        refine ⟨fun b' hb' => ?_, fun j hj => ?_⟩
        · have hbb : b = b' := Option.some.inj hb'
          subst hbb
          exact h1 _ rfl
        · rcases List.mem_cons.mp hj with rfl | hj'
          · exact le_trans (not_lt.mp hlt) (h1 _ rfl)
          · exact h2 _ hj'

theorem argmax_le {k : ℕ} (a : Fin k → ℝ) (i : Fin k)
    (h : argmax a = some i) (j : Fin k) : a j ≤ a i :=
  (argmax_le_aux a (List.finRange k) none i h).2 j (List.mem_finRange j)

/-- C6.  The attribute-probing chain of the sigma-point extraction agrees
with the spec's three ordered representations — (a) mean with full
covariance, (b) mean with diagonalized variance, (c) the mixture
component of highest weight — the mixture branch really selects a
maximal-weight component, and when no representation applies (no mean
for (a)/(b) and no mixture weights for (c)) the extraction fails. -/
theorem C6_extraction_three_cases {D k : ℕ} :
    (∀ d : ParamsDistObj D k, extract_mean_cov d = extract_mean_cov_spec d) ∧
    (∀ (a : Fin k → ℝ) (i : Fin k), argmax a = some i → ∀ j, a j ≤ a i) ∧
    (∀ d : ParamsDistObj D k, d.mean = none → d.a = none →
      extract_mean_cov d = .error ()) := by
  refine ⟨fun d => ?_, fun a i h j => argmax_le a i h j, fun d hm ha => ?_⟩
  · rcases d with ⟨cov, var, mean, a, xs⟩
    cases cov <;> cases var <;> cases mean <;> cases a <;> cases xs <;> rfl
  · rcases d with ⟨cov, var, mean, a, xs⟩
    cases hm
    cases ha
    cases cov <;> cases var <;> cases xs <;> rfl

def c6ex_a : Fin 1 → ℝ := fun _ => 0

/-- Witness for the argmax part of C6 at the one-component weights [0]. -/
theorem C6_witness : c6ex_a 0 ≤ c6ex_a 0 :=
  (C6_extraction_three_cases (D := 1) (k := 1)).2.1 c6ex_a 0 rfl 0

theorem apply2_congr_val {n K A : ℕ} (y : Fin n → Fin K → Fin A → ℝ)
    {a : Fin n} {b : Fin K} (i : Fin n) (t : Fin K) (ha : a.val = i.val)
    (hb : b.val = t.val) (c : Fin A) : y a b c = y i t c := by
  rw [Fin.ext ha, Fin.ext hb]

theorem sigma_flat_split {n P H : ℕ} (i : Fin n) (j : Fin P) (t : Fin H) :
    (pairIdx i j).val * H + t.val =
      (j.val * H + t.val) + i.val * (P * H) := by
  show (i.val * P + j.val) * H + t.val = _
  ring

theorem sigma_flat_div {n P H : ℕ} (i : Fin n) (j : Fin P) (t : Fin H) :
    ((pairIdx i j).val * H + t.val) / (P * H) = i.val := by
  have hb : j.val * H + t.val < P * H := (pairIdx j t).isLt
  rw [sigma_flat_split, Nat.add_mul_div_right _ _
      (lt_of_le_of_lt (Nat.zero_le _) hb),
    Nat.div_eq_of_lt hb, Nat.zero_add]

theorem sigma_flat_mod {n P H : ℕ} (i : Fin n) (j : Fin P) (t : Fin H) :
    ((pairIdx i j).val * H + t.val) % (P * H) = j.val * H + t.val := by
  have hb : j.val * H + t.val < P * H := (pairIdx j t).isLt
  rw [sigma_flat_split, Nat.add_mul_mod_self_right, Nat.mod_eq_of_lt hb]

theorem sigma_flat_mod_mod {n P H : ℕ} (i : Fin n) (j : Fin P) (t : Fin H) :
    (((pairIdx i j).val * H + t.val) % (P * H)) % H = t.val := by
  rw [sigma_flat_mod]
  exact pair_val_mod j t

theorem sigma_expanded_actions_pair {n P H dim_a : ℕ}
    (actions : Fin n → Fin H → Fin dim_a → ℝ) (i : Fin n) (j : Fin P)
    (t : Fin H) (aa : Fin dim_a) :
    sigma_expanded_actions P actions (pairIdx i j) t aa = actions i t aa := by
  rw [sigma_expanded_actions, view_flat3, repeat_dim1]
  exact apply2_congr_val actions i t (sigma_flat_div i j t)
    (sigma_flat_mod_mod i j t) aa

theorem sigma_expanded_params_pair {n P D : ℕ}
    (params_sp : Matrix (Fin D) (Fin P) ℝ) (i : Fin n) (j : Fin P)
    (d : Fin D) :
    sigma_expanded_params n params_sp (pairIdx i j) d = params_sp d j := by
  rw [sigma_expanded_params, repeat_dim0]
  refine congrArg (params_sp d) (Fin.ext ?_)
  show (i.val * P + j.val) % P = j.val
  rw [Nat.mul_comm, Nat.mul_add_mod, Nat.mod_eq_of_lt j.isLt]

/-- C7.  The N x P expansion order is consistent end to end: expanded
action row i*P+j carries candidate sequence i, expanded parameter row
i*P+j carries sigma point j, every one of the N*P state rows starts at
the initial state, and sigma-mode cost aggregation regroups the per-row
terminal and instantaneous costs by the same i*P+j pairing, collapsing
each sample's P rows to a single location-weighted value. -/
theorem C7_sigma_expansion_consistent {n H dim_a dim_s D k P : ℕ}
    {Param : Type} (model : ForwardModel dim_s dim_a D k Param)
    (tf : MerweScaledUTF D P) (lambda_ : ℝ)
    (a_seq : Fin H → Fin dim_a → ℝ)
    (a_pre : Matrix (Fin dim_a) (Fin dim_a) ℝ)
    (inst_cost_fn term_cost_fn : (Fin dim_s → ℝ) → V)
    (actions : Fin n → Fin H → Fin dim_a → ℝ)
    (params_sp : Matrix (Fin D) (Fin P) ℝ)
    (states : Fin (n * P) → Fin (H + 1) → Fin dim_s → ℝ)
    (eps : Fin n → Fin H → Fin dim_a → ℝ) (state : Fin dim_s → ℝ)
    (mean : Fin D → ℝ) (covariance : Matrix (Fin D) (Fin D) ℝ)
    (i : Fin n) (j : Fin P) (t : Fin H) (aa : Fin dim_a) (d : Fin D)
    (r : Fin (n * P)) (s : Fin dim_s) (g : Fin n) :
    (sigma_expanded_actions P actions (pairIdx i j) t aa =
      actions i t aa) ∧
    (sigma_expanded_params n params_sp (pairIdx i j) d = params_sp d j) ∧
    (sigma_states model tf a_seq eps state mean covariance r 0 s =
      state s) ∧
    (compute_cost_sigma lambda_ a_seq a_pre inst_cost_fn term_cost_fn tf
        states eps g =
      (∑ j' : Fin P, V.smul (tf.loc_weights j')
        (term_cost_fn (states (pairIdx g j') (Fin.last H)))) +
        (∑ j' : Fin P, V.smul (tf.loc_weights j')
          (∑ t' : Fin H, inst_cost_fn (states (pairIdx g j') t'.succ))) +
        V.fin (ctrl_costs lambda_ a_seq a_pre eps g)) := by
  have hss : sigma_states model tf a_seq eps state mean covariance =
      fun (r' : Fin (n * P)) (u : Fin (H + 1)) (s' : Fin dim_s) =>
        rollout_states
          (fun st ac => model.step st ac
            (some (model.to_params_dict (sigma_expanded_params n
              (tf.compute_sigma_points mean covariance)))))
          (fun _ => state)
          (acts_row (sigma_expanded_actions P
            (fun (i' : Fin n) (t' : Fin H) (a' : Fin dim_a) =>
              eps i' t' a' + a_seq t' a')))
          u.val r' s' := rfl
  refine ⟨sigma_expanded_actions_pair actions i j t aa,
    sigma_expanded_params_pair params_sp i j d, ?_, ?_⟩
  · rw [hss]
    simp only [Fin.val_zero, rollout_states]
  · simp only [compute_cost_sigma, sigma_reduce, view2, term_costs]
    congr 1
    congr 1
    refine Finset.sum_congr rfl (fun j' _ => ?_)
    rw [inst_sum_eq]

/-! C8: with both cost functions constantly zero the control-effort term
still varies with the noise whenever the nominal sequence is non-zero, so
the weights need not be uniform; they are uniform once the nominal
sequence is zero. -/

def c8_a_seq : Fin 1 → Fin 1 → ℝ := fun _ _ => 1

def c8_a_pre : Matrix (Fin 1) (Fin 1) ℝ := 1

def c8_eps : Fin 2 → Fin 1 → Fin 1 → ℝ := fun i _ _ => if i = 0 then 0 else 1

def c8_states : Fin 2 → Fin (1 + 1) → Fin 1 → ℝ := fun _ _ _ => 0

def c8_zero_fn : (Fin 1 → ℝ) → V := fun _ => V.fin 0

def c8_costs : Fin 2 → V :=
  compute_cost 1 c8_a_seq c8_a_pre c8_zero_fn c8_zero_fn c8_states c8_eps

theorem c8_ctrl (i : Fin 2) :
    ctrl_costs 1 c8_a_seq c8_a_pre c8_eps i = c8_eps i 0 0 := by
  rw [ctrl_costs, show c8_a_pre = 1 from rfl, Matrix.mul_one,
    Matrix.trace_fin_one]
  simp [Matrix.mul_apply, Matrix.transpose_apply, Matrix.of_apply, c8_a_seq,
    Fin.sum_univ_one]

theorem c8_costs_eval (i : Fin 2) : c8_costs i = V.fin (c8_eps i 0 0) := by
  have h2 : inst_sum c8_zero_fn c8_states i = V.fin 0 := by
    rw [inst_sum_eq]
    simp [c8_zero_fn, Fin.sum_univ_one]
  show term_costs c8_zero_fn c8_states i + inst_sum c8_zero_fn c8_states i +
      V.fin (ctrl_costs 1 c8_a_seq c8_a_pre c8_eps i) = _
  rw [h2, c8_ctrl, show term_costs c8_zero_fn c8_states i = V.fin 0 from rfl]
  simp

theorem c8_costs_zero : c8_costs 0 = V.fin 0 := by
  rw [c8_costs_eval]
  simp [c8_eps]

theorem c8_costs_one : c8_costs 1 = V.fin 1 := by
  rw [c8_costs_eval]
  norm_num [c8_eps]

theorem c8_finite : finite_idx c8_costs = Finset.univ := by
  rw [finite_idx]
  refine Finset.filter_true_of_mem (fun i _ => ?_)
  rw [c8_costs_eval]
  rfl

theorem c8_nonempty : (finite_idx c8_costs).Nonempty :=
  ⟨0, by rw [c8_finite]; exact Finset.mem_univ _⟩

theorem c8_beta : beta c8_costs = 0 := by
  rw [beta, dif_pos c8_nonempty]
  refine le_antisymm ?_ (Finset.le_inf' _ _ (fun i hi => ?_))
  · calc (finite_idx c8_costs).inf' c8_nonempty (fun i => (c8_costs i).toR) ≤
        (c8_costs 0).toR :=
          Finset.inf'_le _ (by rw [c8_finite]; exact Finset.mem_univ _)
      _ = 0 := by rw [c8_costs_zero, V.toR_fin]
  · rw [c8_costs_eval, V.toR_fin]
    simp only [c8_eps]
    split <;> norm_num

theorem c8_eta : eta 1 c8_costs = 1 + Real.exp (-1) := by
  rw [eta, c8_finite, Fin.sum_univ_two, c8_costs_zero, c8_costs_one, c8_beta,
    V.toR_fin, V.toR_fin]
  norm_num [Real.exp_zero]

theorem c8_eta_ne : eta 1 c8_costs ≠ 0 := by
  rw [c8_eta]
  positivity

theorem c8_omega_zero :
    (omega 1 c8_costs 0).toR = 1 / (1 + Real.exp (-1)) := by
  rw [omega, c8_costs_zero, c8_beta]
  simp only [V.subR_fin, V.smul_fin, V.exp_fin]
  rw [V.divR_fin_of_ne _ _ c8_eta_ne, V.toR_fin, c8_eta]
  norm_num

theorem c8_omega_one :
    (omega 1 c8_costs 1).toR = Real.exp (-1) / (1 + Real.exp (-1)) := by
  rw [omega, c8_costs_one, c8_beta]
  simp only [V.subR_fin, V.smul_fin, V.exp_fin]
  rw [V.divR_fin_of_ne _ _ c8_eta_ne, V.toR_fin, c8_eta]
  norm_num

theorem exp_neg_one_lt_half : Real.exp (-1) < 1 / 2 := by
  rw [Real.exp_neg]
  have h2 : (2 : ℝ) < Real.exp 1 :=
    lt_trans (by norm_num) Real.exp_one_gt_d9
  have h3 : (Real.exp 1)⁻¹ < 2⁻¹ := inv_strictAnti₀ (by norm_num) h2
  calc (Real.exp 1)⁻¹ < 2⁻¹ := h3
    _ = 1 / 2 := by norm_num

/-- Counterexample to C8 as stated: with both cost functions constantly
zero but a non-zero nominal sequence (nominal = [1], precision identity,
lambda = 1, eps = [0; 1]), the weights deviate from the uniform value 1/2
by more than 1/10 in each direction, so omega is not uniform within any
reasonable tolerance. -/
theorem C8_counterexample :
    (1 / 2 + 1 / 10 : ℝ) < (omega 1 c8_costs 0).toR ∧
      (omega 1 c8_costs 1).toR < 1 / 2 - 1 / 10 := by
  have hu : Real.exp (-1) < 1 / 2 := exp_neg_one_lt_half
  have hpos : 0 < Real.exp (-1) := Real.exp_pos _
  constructor
  · rw [c8_omega_zero]
    rw [lt_div_iff₀ (by linarith : (0 : ℝ) < 1 + Real.exp (-1))]
    linarith
  · rw [c8_omega_one]
    rw [div_lt_iff₀ (by linarith : (0 : ℝ) < 1 + Real.exp (-1))]
    linarith

/-- C8 (amended).  If both cost functions return the constant 0 and the
nominal action sequence is zero (so the control-effort term vanishes),
every cost is exactly 0, the weight vector is uniform (1/N per sample)
and the nominal-sequence update reduces to the clamped plain mean of the
noise samples. -/
theorem C8_amended_zero_nominal_uniform {n H dim_a dim_s : ℕ}
    (lambda_ min_a max_a : ℝ) (a_seq : Fin H → Fin dim_a → ℝ)
    (a_pre : Matrix (Fin dim_a) (Fin dim_a) ℝ)
    (inst_cost_fn term_cost_fn : (Fin dim_s → ℝ) → V)
    (states : Fin n → Fin (H + 1) → Fin dim_s → ℝ)
    (eps : Fin n → Fin H → Fin dim_a → ℝ)
    (actions : Fin n → Fin H → Fin dim_a → ℝ)
    (hn : 0 < n) (hiF : ∀ s, inst_cost_fn s = V.fin 0)
    (htF : ∀ s, term_cost_fn s = V.fin 0) (ha : ∀ t a, a_seq t a = 0) :
    (∀ i, compute_cost lambda_ a_seq a_pre inst_cost_fn term_cost_fn states
      eps i = V.fin 0) ∧
    (∀ i, omega lambda_
      (compute_cost lambda_ a_seq a_pre inst_cost_fn term_cost_fn states eps)
      i = V.fin (1 / (n : ℝ))) ∧
    (update_actions_core lambda_ min_a max_a a_seq
        (compute_cost lambda_ a_seq a_pre inst_cost_fn term_cost_fn states
          eps) eps states actions).a_seq =
      fun t a => clamp ((∑ i : Fin n, eps i t a) / (n : ℝ)) min_a max_a := by
  set costs :=
    compute_cost lambda_ a_seq a_pre inst_cost_fn term_cost_fn states eps
    with hcostsdef
  have hcosts : ∀ i, costs i = V.fin 0 := by
    intro i
    have h2 : inst_sum inst_cost_fn states i = V.fin 0 := by
      calc inst_sum inst_cost_fn states i =
          ∑ t : Fin H, inst_cost_fn (states i t.succ) :=
            inst_sum_eq inst_cost_fn states i
        _ = ∑ _t : Fin H, (0 : V) :=
            Finset.sum_congr rfl (fun t _ => (hiF _).trans rfl)
        _ = 0 := Finset.sum_const_zero
        _ = V.fin 0 := rfl
    have h3 : ctrl_costs lambda_ a_seq a_pre eps i = 0 := by
      rw [ctrl_costs]
      have h0 : Matrix.of a_seq = (0 : Matrix (Fin H) (Fin dim_a) ℝ) := by
        ext t a
        simp [Matrix.of_apply, ha]
      rw [h0, Matrix.zero_mul, Matrix.zero_mul, Matrix.trace_zero, mul_zero]
    show term_costs term_cost_fn states i + inst_sum inst_cost_fn states i +
        V.fin (ctrl_costs lambda_ a_seq a_pre eps i) = V.fin 0
    rw [h2, h3, term_costs, htF]
    simp
  have hfin : finite_idx costs = Finset.univ := by
    rw [finite_idx]
    refine Finset.filter_true_of_mem (fun i _ => ?_)
    rw [hcosts i]
    rfl
  have hne : (finite_idx costs).Nonempty :=
    ⟨⟨0, hn⟩, by rw [hfin]; exact Finset.mem_univ _⟩
  have hbeta : beta costs = 0 := by
    rw [beta, dif_pos hne]
    refine le_antisymm ?_ (Finset.le_inf' _ _ (fun i hi => ?_))
    · calc (finite_idx costs).inf' hne (fun i => (costs i).toR) ≤
          (costs ⟨0, hn⟩).toR :=
            Finset.inf'_le _ (by rw [hfin]; exact Finset.mem_univ _)
        _ = 0 := by rw [hcosts, V.toR_fin]
    · rw [hcosts i, V.toR_fin]
  have heta : eta lambda_ costs = (n : ℝ) := by
    rw [eta]
    calc ∑ i ∈ finite_idx costs,
        Real.exp ((-1 / lambda_) * ((costs i).toR - beta costs)) =
          ∑ _i ∈ finite_idx costs, (1 : ℝ) :=
          Finset.sum_congr rfl (fun i _ => by
            rw [hcosts i, V.toR_fin, hbeta, sub_zero, mul_zero,
              Real.exp_zero])
      _ = ((finite_idx costs).card : ℝ) := by
          rw [Finset.sum_const, nsmul_eq_mul, mul_one]
      _ = (n : ℝ) := by rw [hfin, Finset.card_univ, Fintype.card_fin]
  have hnR : ((n : ℝ)) ≠ 0 := Nat.cast_ne_zero.mpr hn.ne'
  have homega : ∀ i, omega lambda_ costs i = V.fin (1 / (n : ℝ)) := by
    intro i
    rw [omega, hcosts i, hbeta]
    simp only [V.subR_fin, sub_zero, V.smul_fin, mul_zero, V.exp_fin,
      Real.exp_zero]
    rw [V.divR_fin_of_ne _ _ (by rw [heta]; exact hnR), heta]
  refine ⟨hcosts, homega, ?_⟩
  have hbo : ∀ i, (bounded_omega lambda_ costs i).toR = 1 / (n : ℝ) := by
    intro i
    rw [bounded_omega, homega i]
    simp
  rw [update_actions_core, if_neg (Finset.nonempty_iff_ne_empty.mp hne)]
  funext t a
  show clamp
      (a_seq t a +
        ∑ i : Fin n, (bounded_omega lambda_ costs i).toR * eps i t a)
      min_a max_a = _
  congr 1
  rw [ha t a, zero_add]
  calc ∑ i : Fin n, (bounded_omega lambda_ costs i).toR * eps i t a =
      ∑ i : Fin n, eps i t a / (n : ℝ) :=
        Finset.sum_congr rfl (fun i _ => by rw [hbo i]; ring)
    _ = (∑ i : Fin n, eps i t a) / (n : ℝ) := (Finset.sum_div _ _ _).symm

def c8w_states : Fin 1 → Fin (1 + 1) → Fin 1 → ℝ := fun _ _ _ => 0

def c8w_eps : Fin 1 → Fin 1 → Fin 1 → ℝ := fun _ _ _ => 0

def c8w_a_seq : Fin 1 → Fin 1 → ℝ := fun _ _ => 0

/-- C10.  In sigma-point mode a successful update returns the
un-expanded candidate actions (n rows, noise plus nominal), the weight
vector over the n samples, and the state batch expanded over the n * P
sample-sigma-point rows: only the state array crosses the public
interface in expanded form. -/
theorem C10_sigma_interface_shapes {n H dim_a dim_s D k P : ℕ}
    {Param : Type} (model : ForwardModel dim_s dim_a D k Param)
    (tf : MerweScaledUTF D P) (lambda_ min_a max_a : ℝ)
    (a_seq : Fin H → Fin dim_a → ℝ)
    (a_pre : Matrix (Fin dim_a) (Fin dim_a) ℝ)
    (inst_cost_fn term_cost_fn : (Fin dim_s → ℝ) → V)
    (eps : Fin n → Fin H → Fin dim_a → ℝ) (state : Fin dim_s → ℝ)
    (mc : (Fin D → ℝ) × Matrix (Fin D) (Fin D) ℝ)
    (hex : extract_mean_cov model.params_dist = Except.ok mc)
    (hne : (finite_idx (sigma_costs model tf lambda_ a_seq a_pre
      inst_cost_fn term_cost_fn eps state mc.1 mc.2)).Nonempty) :
    update_actions_sigma model tf lambda_ min_a max_a a_seq a_pre
        inst_cost_fn term_cost_fn eps state =
      Except.ok
        ⟨UpdateResult.success
            (∑ i ∈ finite_idx (sigma_costs model tf lambda_ a_seq a_pre
                inst_cost_fn term_cost_fn eps state mc.1 mc.2),
              (omega lambda_ (sigma_costs model tf lambda_ a_seq a_pre
                inst_cost_fn term_cost_fn eps state mc.1 mc.2) i).toR *
                ((sigma_costs model tf lambda_ a_seq a_pre inst_cost_fn
                  term_cost_fn eps state mc.1 mc.2) i).toR)
            (sigma_states model tf a_seq eps state mc.1 mc.2)
            (fun i t a => eps i t a + a_seq t a)
            (omega lambda_ (sigma_costs model tf lambda_ a_seq a_pre
              inst_cost_fn term_cost_fn eps state mc.1 mc.2)),
          fun t a =>
            clamp
              (a_seq t a +
                ∑ i : Fin n, (bounded_omega lambda_
                  (sigma_costs model tf lambda_ a_seq a_pre inst_cost_fn
                    term_cost_fn eps state mc.1 mc.2) i).toR * eps i t a)
              min_a max_a,
          false⟩ := by
  rcases mc with ⟨mean, covariance⟩
  simp only [sigma_costs] at hne
  simp only [update_actions_sigma, sample_sigma_trajectories, hex,
    sigma_costs]
  rw [update_actions_core, if_neg (Finset.nonempty_iff_ne_empty.mp hne)]

def c10_model : ForwardModel 1 1 1 1 Unit where
  step := fun st _ _ => st
  sample_params := fun _ => ()
  to_params_dict := fun _ => ()
  params_dist :=
    ⟨some 1, none, some (fun _ => 0), none, none⟩

def c10_tf : MerweScaledUTF 1 1 where
  compute_sigma_points := fun _ _ => Matrix.of (fun _ _ => 0)
  loc_weights := fun _ => 1

def c10_eps : Fin 1 → Fin 1 → Fin 1 → ℝ := fun _ _ _ => 0

def c10_state : Fin 1 → ℝ := fun _ => 0

def c10_mc : (Fin 1 → ℝ) × Matrix (Fin 1) (Fin 1) ℝ := ((fun _ => 0), 1)

theorem c10_costs_finite :
    ((sigma_costs c10_model c10_tf 1 c8w_a_seq c8_a_pre c8_zero_fn
      c8_zero_fn c10_eps c10_state c10_mc.1 c10_mc.2) 0).isfinite =
      true := by
  simp only [sigma_costs, compute_cost_sigma, sigma_reduce, view2,
    inst_flat, inst_sum, term_costs, c8_zero_fn, c10_tf]
  simp [Fin.sum_univ_one]

theorem c10_nonempty :
    (finite_idx (sigma_costs c10_model c10_tf 1 c8w_a_seq c8_a_pre
      c8_zero_fn c8_zero_fn c10_eps c10_state c10_mc.1
      c10_mc.2)).Nonempty :=
  ⟨0, mem_finite_idx.mpr c10_costs_finite⟩

/-- Witness for C10 at a one-sample, one-sigma-point configuration with
identity dynamics and zero costs. -/
theorem C10_witness :
    update_actions_sigma c10_model c10_tf 1 (-1) 1 c8w_a_seq c8_a_pre
        c8_zero_fn c8_zero_fn c10_eps c10_state =
      Except.ok
        ⟨UpdateResult.success
            (∑ i ∈ finite_idx (sigma_costs c10_model c10_tf 1 c8w_a_seq
                c8_a_pre c8_zero_fn c8_zero_fn c10_eps c10_state c10_mc.1
                c10_mc.2),
              (omega 1 (sigma_costs c10_model c10_tf 1 c8w_a_seq c8_a_pre
                c8_zero_fn c8_zero_fn c10_eps c10_state c10_mc.1 c10_mc.2)
                i).toR *
                ((sigma_costs c10_model c10_tf 1 c8w_a_seq c8_a_pre
                  c8_zero_fn c8_zero_fn c10_eps c10_state c10_mc.1
                  c10_mc.2) i).toR)
            (sigma_states c10_model c10_tf c8w_a_seq c10_eps c10_state
              c10_mc.1 c10_mc.2)
            (fun i t a => c10_eps i t a + c8w_a_seq t a)
            (omega 1 (sigma_costs c10_model c10_tf 1 c8w_a_seq c8_a_pre
              c8_zero_fn c8_zero_fn c10_eps c10_state c10_mc.1
              c10_mc.2)),
          fun t a =>
            clamp
              (c8w_a_seq t a +
                ∑ i : Fin 1, (bounded_omega 1
                  (sigma_costs c10_model c10_tf 1 c8w_a_seq c8_a_pre
                    c8_zero_fn c8_zero_fn c10_eps c10_state c10_mc.1
                    c10_mc.2) i).toR * c10_eps i t a)
              (-1) 1,
          false⟩ :=
  C10_sigma_interface_shapes c10_model c10_tf 1 (-1) 1 c8w_a_seq c8_a_pre
    c8_zero_fn c8_zero_fn c10_eps c10_state c10_mc rfl c10_nonempty

/-- Witness for the amended C8 at one sample, zero nominal sequence and
zero cost functions. -/
theorem C8_witness :
    (0 < 1) ∧
      omega 1
        (compute_cost 1 c8w_a_seq c8_a_pre c8_zero_fn c8_zero_fn c8w_states
          c8w_eps) 0 = V.fin (1 / ((1 : ℕ) : ℝ)) :=
  ⟨Nat.one_pos,
    (C8_amended_zero_nominal_uniform 1 (-1) 1 c8w_a_seq c8_a_pre c8_zero_fn
      c8_zero_fn c8w_states c8w_eps c8w_eps Nat.one_pos (fun _ => rfl)
      (fun _ => rfl) (fun _ _ => rfl)).2.1 0⟩

end Disco
